import Mathlib

/-!
# Verification of the CacheFly provider core

Shallow embedding of the resilient transport layer (`makeRequestWithRetry`,
`handleResponse`), the domain reconciler (`manageServiceDomains` and its
helpers), the service lifecycle manager (`findServiceByUniqueName`,
`resourceCacheflyServiceCreate`), and the options configurator
(`configureReverseProxy`, `getServiceOptions`) from
`cachefly/helpers.go` and `cachefly/resource_service.go`.

Network interaction is modelled by traces: each operation is a pure
function from its inputs (and, where relevant, the sequence of responses
the transport would observe) to the list of remote calls it issues and
its result.  Remote server state for the domain reconciler is a list of
domain records, transformed by the issued calls.
-/

namespace CacheFly

/-! ## Resilient transport (`makeRequestWithRetry`, helpers.go lines 48-82)

One attempt of `makeRequest` either fails at the transport level (the Go
`err != nil` case) or yields a response with a status code. -/

inductive Attempt where
  | transportErr (msg : String)
  | response (status : Nat)
deriving DecidableEq

/-- Outcome of the retry loop: a returned response (status < 500) together
with the number of attempts used, or exhaustion carrying the final value of
the Go `lastErr` variable. -/
inductive RetryOutcome where
  | success (status : Nat) (attempts : Nat)
  | failure (lastErr : Option String) (attempts : Nat)
deriving DecidableEq

/-- The loop body of `makeRequestWithRetry`: `fuel` is the number of
remaining iterations, `attempt` the 0-indexed attempt counter, `lastErr`
the accumulated last transport-level error.  A response with status < 500
is returned immediately; otherwise the loop retries.  `lastErr` is updated
only when the attempt failed at the transport level (`err != nil` in Go),
not when it produced a >= 500 response. -/
def retryGo (oracle : Nat → Attempt) : Nat → Nat → Option String → RetryOutcome
  | 0, attempt, lastErr => .failure lastErr attempt
  | fuel + 1, attempt, lastErr =>
    match oracle attempt with
    | .response s =>
      if s < 500 then .success s (attempt + 1)
      else retryGo oracle fuel (attempt + 1) lastErr
    | .transportErr e => retryGo oracle fuel (attempt + 1) (some e)

/-- `maxRetries` constant of `makeRequestWithRetry`. -/
def maxRetries : Nat := 5

/-- `makeRequestWithRetry`, with the transport behaviour of attempt `i`
given by `oracle i`. -/
def makeRequestWithRetry (oracle : Nat → Attempt) : RetryOutcome :=
  retryGo oracle maxRetries 0 none

/-- An attempt that the retry loop treats as failed: a transport-level
error, or a response with status >= 500. -/
def attemptFailed : Attempt → Bool
  | .transportErr _ => true
  | .response s => 500 ≤ s

/-- Specification-side accumulator mirroring how the Go `lastErr` variable
evolves across failed attempts: transport errors overwrite it, >= 500
responses leave it unchanged. -/
def accumErr (oracle : Nat → Attempt) : Nat → Nat → Option String → Option String
  | 0, _, lastErr => lastErr
  | fuel + 1, attempt, lastErr =>
    match oracle attempt with
    | .transportErr e => accumErr oracle fuel (attempt + 1) (some e)
    | .response _ => accumErr oracle fuel (attempt + 1) lastErr

/-- The most recent transport-level error among the `maxRetries` attempts,
if any. -/
def lastTransportError (oracle : Nat → Attempt) : Option String :=
  accumErr oracle maxRetries 0 none

/-- `handleResponse` (helpers.go lines 85-92): any 2xx status is success,
everything else is an error. -/
def handleResponse (status : Nat) : Except String Unit :=
  if 200 ≤ status ∧ status < 300 then .ok ()
  else .error ("HTTP " ++ toString status)

/-- `createServiceDomain` (helpers.go lines 242-261), abstracted to its
response handling: a POST through the retry layer, validated with
`handleResponse`. -/
def createServiceDomain (oracle : Nat → Attempt) : Except String Unit :=
  match makeRequestWithRetry oracle with
  | .success s _ => handleResponse s
  | .failure _ _ => .error "failed to create service domain after retries"

/-- `updateServiceDomain` (helpers.go lines 220-239), abstracted to its
response handling: a PUT through the retry layer, validated with
`handleResponse`. -/
def updateServiceDomain (oracle : Nat → Attempt) : Except String Unit :=
  match makeRequestWithRetry oracle with
  | .success s _ => handleResponse s
  | .failure _ _ => .error "failed to update service domain after retries"

/-- `deleteServiceDomain` (helpers.go lines 278-292): a DELETE through the
retry layer; the status is compared against exactly `http.StatusOK` (200)
instead of going through `handleResponse`. -/
def deleteServiceDomain (oracle : Nat → Attempt) : Except String Unit :=
  match makeRequestWithRetry oracle with
  | .success s _ =>
    if s = 200 then .ok ()
    else .error ("failed to delete domain: HTTP " ++ toString s)
  | .failure _ _ => .error "failed to send DELETE request after retries"

/-! ## Domain reconciler data model (resource_service.go lines 29-40) -/

/-- `DomainResource` restricted to the fields the reconciler reads. -/
structure DomainResource where
  id : String
  name : String
  description : String
  validationMode : String
deriving DecidableEq

/-- One entry of the Terraform `domains` list: the desired domain. -/
structure DesiredDomain where
  name : String
  description : String
  validation_mode : String
deriving DecidableEq

/-- `isDefaultDomain` (helpers.go lines 294-296):
`strings.HasSuffix(name, ".cachefly.net")`, as a suffix test on the
character list. -/
def isDefaultDomain (name : String) : Bool :=
  ".cachefly.net".data.isSuffixOf name.data

/-- `needsUpdate` (helpers.go lines 298-300). -/
def needsUpdate (existing : DomainResource) (description validationMode : String) : Bool :=
  existing.description != description || existing.validationMode != validationMode

/-- Go map insertion (`mapped[domain.Name] = domain`): replace any entry
with the same key, modelled as filter-then-append on an association list. -/
def insertDomain (m : List (String × DomainResource)) (k : String) (v : DomainResource) :
    List (String × DomainResource) :=
  m.filter (fun p => p.1 != k) ++ [(k, v)]

/-- Go map lookup over the association-list model. -/
def lookupDomain (m : List (String × DomainResource)) (k : String) : Option DomainResource :=
  (m.find? (fun p => p.1 == k)).map (fun p => p.2)

/-- `mapExistingDomains` (helpers.go lines 302-308): index the fetched
domains by name, later entries overwriting earlier ones. -/
def mapExistingDomains (domains : List DomainResource) : List (String × DomainResource) :=
  domains.foldl (fun m d => insertDomain m d.name d) []

/-- A remote mutation issued by the reconciler. -/
inductive DomainCall where
  | create (name description validationMode : String)
  | update (domainID name description validationMode : String)
  | delete (domainID : String)
deriving DecidableEq

/-- The call the reconciler's per-desired-domain loop body issues
(helpers.go lines 167-189): an update when the name is present in the
fetched map and differs, a create when absent, nothing otherwise. -/
def domainCallFor (m : List (String × DomainResource)) (d : DesiredDomain) : List DomainCall :=
  match lookupDomain m d.name with
  | some existing =>
    if needsUpdate existing d.description d.validation_mode then
      [.update existing.id d.name d.description d.validation_mode]
    else []
  | none => [.create d.name d.description d.validation_mode]

/-- The add-or-update loop of `manageServiceDomains`, accumulating the
processed-name set and the issued calls in order. -/
def processDesired (m : List (String × DomainResource)) :
    List DesiredDomain → List String → List DomainCall → List String × List DomainCall
  | [], processed, calls => (processed, calls)
  | d :: rest, processed, calls =>
    processDesired m rest (processed ++ [d.name]) (calls ++ domainCallFor m d)

/-- The sequence of create/update calls the loop issues for a desired
list, against the fixed fetched map `m`. -/
def genCalls (m : List (String × DomainResource)) : List DesiredDomain → List DomainCall
  | [] => []
  | d :: rest => domainCallFor m d ++ genCalls m rest

/-- `deleteUnusedDomains` (helpers.go lines 263-276): delete every fetched
domain that was not processed and is not a default CacheFly domain. -/
def deleteUnusedDomains (m : List (String × DomainResource)) (processed : List String) :
    List DomainCall :=
  m.filterMap (fun p =>
    if processed.contains p.1 || isDefaultDomain p.1 then none
    else some (.delete p.2.id))

/-- `manageServiceDomains` (helpers.go lines 154-193) as the trace of
remote mutations it issues, given the fetched existing domains and the
desired list, assuming every issued call succeeds. -/
def manageServiceDomains (existing : List DomainResource) (desired : List DesiredDomain) :
    List DomainCall :=
  let m := mapExistingDomains existing
  let pc := processDesired m desired [] []
  pc.2 ++ deleteUnusedDomains m pc.1

/-- Identifier the remote side assigns to a domain created for `name`
(any choice fresh w.r.t. the existing ids is adequate for the model). -/
def freshId (name : String) : String := "new-" ++ name

/-- The remote record a successful create call for `d` produces. -/
def newRec (d : DesiredDomain) : DomainResource :=
  ⟨freshId d.name, d.name, d.description, d.validation_mode⟩

/-- Effect of one successful remote mutation on the remote domain list. -/
def applyCall (s : List DomainResource) : DomainCall → List DomainResource
  | .create n desc v => s ++ [⟨freshId n, n, desc, v⟩]
  | .update i n desc v => s.map (fun r => if r.id == i then ⟨i, n, desc, v⟩ else r)
  | .delete i => s.filter (fun r => r.id != i)

/-- Effect of a successful call sequence on the remote domain list. -/
def applyCalls (s : List DomainResource) (calls : List DomainCall) : List DomainResource :=
  calls.foldl applyCall s

/-- Remote domain list after a successful run of `manageServiceDomains`. -/
def runReconcile (existing : List DomainResource) (desired : List DesiredDomain) :
    List DomainResource :=
  applyCalls existing (manageServiceDomains existing desired)

/-- Specification-side view: the record `e` becomes after the add-or-update
phase, relative to a desired list. -/
def updateBy (desired : List DesiredDomain) (e : DomainResource) : DomainResource :=
  match desired.find? (fun d => d.name == e.name) with
  | some d => ⟨e.id, d.name, d.description, d.validation_mode⟩
  | none => e

/-- Whether some remote record carries the given name. -/
def hasName (s : List DomainResource) (n : String) : Bool :=
  s.any (fun e => e.name == n)

/-- Specification-side view: records created during the add-or-update
phase (desired names absent from the fetched list, in desired order). -/
def newRecs (existing : List DomainResource) (desired : List DesiredDomain) :
    List DomainResource :=
  desired.filterMap (fun d => if hasName existing d.name then none else some (newRec d))

/-- Specification-side view of the remote list after the add-or-update
phase. -/
def phaseState (existing : List DomainResource) (desired : List DesiredDomain) :
    List DomainResource :=
  existing.map (updateBy desired) ++ newRecs existing desired

/-- Ids of the existing domains the delete phase removes: not named in the
desired list and not default domains. -/
def delIds (existing : List DomainResource) (desired : List DesiredDomain) : List String :=
  existing.filterMap (fun e =>
    if (desired.map (fun d => d.name)).contains e.name || isDefaultDomain e.name then none
    else some e.id)

/-- Whether a call is a create or update carrying domain name `n`. -/
def isCallForName (n : String) : DomainCall → Bool
  | .create m _ _ => m == n
  | .update _ m _ _ => m == n
  | .delete _ => false

/-! ## Service lifecycle manager (resource_service.go lines 246-294, 650-694) -/

/-- `ServiceResource` restricted to the fields the create path reads. -/
structure ServiceResource where
  id : String
  name : String
  uniqueName : String
  description : String
  status : String
deriving DecidableEq

/-- A remote call issued by the service create path. -/
inductive ServiceCall where
  | listServices
  | activate (serviceID : String)
  | createService (name uniqueName description : String)
deriving DecidableEq

/-- Result of the create path. -/
inductive CreateOutcome where
  | reactivated (s : ServiceResource)
  | conflict (uniqueName : String)
  | created (name uniqueName description : String)
deriving DecidableEq

/-- `findServiceByUniqueName` (resource_service.go lines 650-677): linear
scan of the unfiltered listing for an exact `uniqueName` match. -/
def findServiceByUniqueName (services : List ServiceResource) (uniqueName : String) :
    Option ServiceResource :=
  services.find? (fun s => s.uniqueName == uniqueName)

/-- `strings.ToLower`, character by character on the character list. -/
def toLowerStr (s : String) : String := ⟨s.data.map Char.toLower⟩

/-- The branching prelude of `resourceCacheflyServiceCreate`
(resource_service.go lines 246-294), given the service listing the remote
side returns: reactivate an exact-match DEACTIVATED record, report a
conflict for any other matching record, create when no record matches.
The desired unique name is lowercased first, as in the source. -/
def resourceCacheflyServiceCreate (services : List ServiceResource)
    (name uniqueName description : String) : List ServiceCall × CreateOutcome :=
  match findServiceByUniqueName services (toLowerStr uniqueName) with
  | some existing =>
    if existing.status = "DEACTIVATED" then
      ([.listServices, .activate existing.id], .reactivated existing)
    else
      ([.listServices], .conflict (toLowerStr uniqueName))
  | none =>
    ([.listServices, .createService name (toLowerStr uniqueName) description],
      .created name (toLowerStr uniqueName) description)

/-! ## Options configurator (resource_service.go lines 42-66, 696-811) -/

/-- `ReverseProxy` (resource_service.go lines 42-55). -/
structure ReverseProxy where
  enabled : Bool
  hostname : String
  mode : String
  originScheme : String
  cacheByQueryParam : Bool
  ttl : Int
  useRobotsTxt : Bool
  prepend : String
  accessKey : String
  secretKey : String
  region : String
  bucket : String
deriving DecidableEq

/-- `ErrorTTL` (resource_service.go lines 57-60); the pointer-typed
`Value` becomes an `Option`. -/
structure ErrorTTL where
  enabled : Bool
  value : Option Int
deriving DecidableEq

/-- `ServiceOptions` (resource_service.go lines 62-66). -/
structure ServiceOptions where
  reverseProxy : ReverseProxy
  error_ttl : Option ErrorTTL
  edgetoorigin : Bool
deriving DecidableEq

/-- The `reverseProxy` JSON object `configureReverseProxy` writes; fields
absent from the payload are `none`. -/
structure ProxyPayload where
  enabled : Bool
  hostname : Option String := none
  mode : Option String := none
  ttl : Option Int := none
  cacheByQueryParam : Option Bool := none
  originScheme : Option String := none
  useRobotsTxt : Option Bool := none
  prepend : Option String := none
  accessKey : Option String := none
  secretKey : Option String := none
  region : Option String := none
  bucket : Option String := none
deriving DecidableEq

/-- A remote call issued against the merged options endpoint. -/
inductive OptionsCall where
  | getOptions
  | putOptions (payload : ProxyPayload)
deriving DecidableEq

/-- The full payload written in the enabled branch of
`configureReverseProxy` (resource_service.go lines 740-767): the base
fields, `prepend` only for non-empty WEB, the credentials for
OBJECT_STORAGE, `bucket` only when non-empty. -/
def buildProxyPayload (rp : ReverseProxy) : ProxyPayload :=
  { enabled := true
    hostname := some rp.hostname
    mode := some rp.mode
    ttl := some rp.ttl
    cacheByQueryParam := some rp.cacheByQueryParam
    originScheme := some rp.originScheme
    useRobotsTxt := some rp.useRobotsTxt
    prepend := if rp.mode == "WEB" && rp.prepend != "" then some rp.prepend else none
    accessKey := if rp.mode == "OBJECT_STORAGE" then some rp.accessKey else none
    secretKey := if rp.mode == "OBJECT_STORAGE" then some rp.secretKey else none
    region := if rp.mode == "OBJECT_STORAGE" then some rp.region else none
    bucket := if rp.mode == "OBJECT_STORAGE" && rp.bucket != "" then some rp.bucket else none }

/-- The body of `configureReverseProxy` after the hostname auto-enable
rule: disabled-to-disabled is a no-op; disabling writes only
`enabled = false`; enabling validates OBJECT_STORAGE credentials after
the fetch and before the write. -/
def configureRPBody (current rp : ReverseProxy) : List OptionsCall × Except String Unit :=
  if !current.enabled && !rp.enabled then
    ([.getOptions], .ok ())
  else if !rp.enabled then
    ([.getOptions, .putOptions { enabled := false }], .ok ())
  else if rp.mode == "OBJECT_STORAGE" &&
      (rp.accessKey == "" || rp.secretKey == "" || rp.region == "") then
    ([.getOptions],
      .error "accessKey, secretKey, and region are required for OBJECT_STORAGE mode")
  else
    ([.getOptions, .putOptions (buildProxyPayload rp)], .ok ())

/-- `configureReverseProxy` (resource_service.go lines 696-785), given
the current state the initial options fetch returns: the trace of
options calls issued and the result.  The options fetch itself is the
first call of the trace; a non-empty hostname forces `enabled`. -/
def configureReverseProxy (current desired : ReverseProxy) :
    List OptionsCall × Except String Unit :=
  configureRPBody current
    (if desired.hostname != "" then { desired with enabled := true } else desired)

/-- `getServiceOptions` (resource_service.go lines 787-811) after a
successful decode: an error-TTL object whose `value` is absent is
collapsed to `nil`. -/
def getServiceOptions (options : ServiceOptions) : ReverseProxy × Option ErrorTTL × Bool :=
  (options.reverseProxy,
    match options.error_ttl with
    | some t => if t.value = none then none else some t
    | none => none,
    options.edgetoorigin)

/-! ## Concrete instances used by witnesses and counterexamples -/

/-- Four 503 responses followed by a 200. -/
def oracle503 : Nat → Attempt := fun i => if i < 4 then .response 503 else .response 200

/-- 500 responses forever. -/
def oracle500 : Nat → Attempt := fun _ => .response 500

/-- A transport error "A" followed by 500 responses. -/
def oracleA : Nat → Attempt := fun i => if i = 0 then .transportErr "A" else .response 500

/-- A transport error "B" followed by 500 responses. -/
def oracleB : Nat → Attempt := fun i => if i = 0 then .transportErr "B" else .response 500

/-- A single 204 response. -/
def oracle204 : Nat → Attempt := fun _ => .response 204

/-- Transport errors on every attempt. -/
def oracleErrs : Nat → Attempt := fun i => .transportErr (toString i)

/-- Existing remote set for the duplicate-desired-name counterexamples. -/
def E0 : List DomainResource := [⟨"i1", "a.com", "d2", "NONE"⟩]

/-- Desired list with the name `a.com` occurring twice. -/
def D0 : List DesiredDomain := [⟨"a.com", "d1", "NONE"⟩, ⟨"a.com", "d2", "NONE"⟩]

/-- Existing remote set for the reconciler witnesses: one matching custom
domain, one default domain, one stale custom domain. -/
def E1 : List DomainResource :=
  [⟨"i1", "a.com", "old", "NONE"⟩,
   ⟨"i2", "svc.cachefly.net", "", "NONE"⟩,
   ⟨"i3", "old.com", "", "NONE"⟩]

/-- Desired list for the reconciler witnesses. -/
def D1 : List DesiredDomain := [⟨"a.com", "fresh", "DNS"⟩, ⟨"b.com", "", "HTTP"⟩]

/-- A deactivated service record. -/
def svcDeactivated : ServiceResource := ⟨"s1", "Svc One", "svcone", "", "DEACTIVATED"⟩

/-- An active service record. -/
def svcActive : ServiceResource := ⟨"s2", "Svc Two", "svctwo", "", "ACTIVE"⟩

/-- A listing holding one deactivated and one active service. -/
def services1 : List ServiceResource := [svcDeactivated, svcActive]

/-- A disabled reverse-proxy state, as a freshly created service has. -/
def rpDisabled : ReverseProxy :=
  ⟨false, "", "WEB", "HTTPS", false, 2592000, false, "", "", "", "", ""⟩

/-- Desired reverse proxy: enabled OBJECT_STORAGE with an empty secret
key. -/
def rpMissingSecret : ReverseProxy :=
  ⟨true, "bucket.example.com", "OBJECT_STORAGE", "HTTPS", false, 2592000, false,
    "", "AKIA", "", "us-east-1", "files"⟩

/-- Options document whose error-TTL object is enabled but carries no
value. -/
def optionsNoValue : ServiceOptions := ⟨rpDisabled, some ⟨true, none⟩, false⟩

/-! ## Transport lemmas -/

/-- The retry loop only consults the oracle at the attempt indices it has
fuel for. -/
theorem retryGo_congr {o1 o2 : Nat → Attempt} :
    ∀ (fuel attempt : Nat) (lastErr : Option String),
      (∀ i, attempt ≤ i → i < attempt + fuel → o1 i = o2 i) →
      retryGo o1 fuel attempt lastErr = retryGo o2 fuel attempt lastErr := by
  intro fuel
  induction fuel with
  | zero => intro attempt lastErr _; rfl
  | succ n ih =>
    intro attempt lastErr h
    have h0 : o1 attempt = o2 attempt := h attempt le_rfl (by omega)
    simp only [retryGo, h0]
    cases h2 : o2 attempt with
    | response s =>
      by_cases hs : s < 500
      · simp [hs]
      · simp only [if_neg hs]
        exact ih (attempt + 1) lastErr (fun i hl hr => h i (by omega) (by omega))
    | transportErr e =>
      exact ih (attempt + 1) (some e) (fun i hl hr => h i (by omega) (by omega))

/-- The retry result depends only on the first `maxRetries` attempts. -/
theorem makeRequestWithRetry_congr {o1 o2 : Nat → Attempt}
    (h : ∀ i, i < maxRetries → o1 i = o2 i) :
    makeRequestWithRetry o1 = makeRequestWithRetry o2 :=
  retryGo_congr maxRetries 0 none (fun i _ hr => h i (by omega))

/-- When every attempt in range fails, the loop exhausts its fuel and the
final `lastErr` is the `accumErr` accumulation. -/
theorem retryGo_exhaust (oracle : Nat → Attempt) :
    ∀ (fuel attempt : Nat) (lastErr : Option String),
      (∀ i, attempt ≤ i → i < attempt + fuel → attemptFailed (oracle i) = true) →
      retryGo oracle fuel attempt lastErr =
        .failure (accumErr oracle fuel attempt lastErr) (attempt + fuel) := by
  intro fuel
  induction fuel with
  | zero => intro attempt lastErr _; simp [retryGo, accumErr]
  | succ n ih =>
    intro attempt lastErr h
    have h0 : attemptFailed (oracle attempt) = true := h attempt le_rfl (by omega)
    cases ho : oracle attempt with
    | response s =>
      have hs : ¬ s < 500 := by
        rw [ho] at h0
        simp [attemptFailed] at h0
        omega
      simp only [retryGo, accumErr, ho, if_neg hs]
      rw [ih (attempt + 1) lastErr (fun i hl hr => h i (by omega) (by omega))]
      congr 1
      omega
    | transportErr e =>
      simp only [retryGo, accumErr, ho]
      rw [ih (attempt + 1) (some e) (fun i hl hr => h i (by omega) (by omega))]
      congr 1
      omega

/-! ## Claims about the transport -/

/-- Claim C2: given 4 consecutive 503 responses followed by a 200, the
call succeeds with the 200 response after exactly 5 attempts; given 5
consecutive 500 responses, it fails after exactly 5 attempts, and the
outcome is independent of anything past the fifth attempt (no sixth
request is issued). -/
theorem retry_bound (o1 o2 : Nat → Attempt)
    (h503 : ∀ i, i < 4 → o1 i = .response 503)
    (h200 : o1 4 = .response 200)
    (h500 : ∀ i, i < 5 → o2 i = .response 500) :
    makeRequestWithRetry o1 = .success 200 5 ∧
    makeRequestWithRetry o2 = .failure none 5 ∧
    ∀ o3 : Nat → Attempt, (∀ i, i < 5 → o3 i = o2 i) →
      makeRequestWithRetry o3 = .failure none 5 := by
  have hco2 : makeRequestWithRetry o2 = makeRequestWithRetry oracle500 := by
    apply makeRequestWithRetry_congr
    intro i hi
    rw [h500 i hi]
    rfl
  refine ⟨?_, ?_, ?_⟩
  · have hco1 : makeRequestWithRetry o1 = makeRequestWithRetry oracle503 := by
      apply makeRequestWithRetry_congr
      intro i hi
      rcases Nat.lt_or_ge i 4 with h4 | h4
      · rw [h503 i h4]
        simp [oracle503, h4]
      · have hi4 : i = 4 := by
          have : i < 5 := hi
          omega
        subst hi4
        rw [h200]
        simp [oracle503]
    rw [hco1]
    decide
  · rw [hco2]
    decide
  · intro o3 hagree
    have : makeRequestWithRetry o3 = makeRequestWithRetry o2 :=
      makeRequestWithRetry_congr (fun i hi => hagree i hi)
    rw [this, hco2]
    decide

/-- Witness for C2 at the concrete response sequences. -/
theorem retry_bound_witness :
    ((∀ i, i < 4 → oracle503 i = .response 503) ∧ oracle503 4 = .response 200 ∧
      (∀ i, i < 5 → oracle500 i = .response 500)) ∧
    (makeRequestWithRetry oracle503 = .success 200 5 ∧
      makeRequestWithRetry oracle500 = .failure none 5 ∧
      ∀ o3 : Nat → Attempt, (∀ i, i < 5 → o3 i = oracle500 i) →
        makeRequestWithRetry o3 = .failure none 5) :=
  ⟨⟨by decide, by decide, by decide⟩,
    retry_bound oracle503 oracle500 (by decide) (by decide) (by decide)⟩

/-- Counterexample to C5: two exhausted sequences with the same last
failed attempt (a 500 response) produce aggregated errors wrapping
different causes — the earlier transport error, not anything from the
last attempt — and an all-500 sequence produces an error wrapping no
cause at all, although its last attempt also failed. -/
theorem retry_last_cause_counterexample :
    makeRequestWithRetry oracleA = .failure (some "A") 5 ∧
    makeRequestWithRetry oracleB = .failure (some "B") 5 ∧
    oracleA 4 = oracleB 4 ∧
    makeRequestWithRetry oracle500 = .failure none 5 := by decide

/-- Claim C5 (amended): after exhausting all 5 attempts, the aggregated
error wraps the most recent transport-level error among the attempts, if
any; attempts failing with a >= 500 response contribute no cause, so an
exhaustion with no transport-level failure carries none. -/
theorem retry_error_is_last_transport_error (oracle : Nat → Attempt)
    (h : ∀ i, i < maxRetries → attemptFailed (oracle i) = true) :
    makeRequestWithRetry oracle = .failure (lastTransportError oracle) maxRetries := by
  unfold makeRequestWithRetry lastTransportError
  rw [retryGo_exhaust oracle maxRetries 0 none (fun i _ hr => h i (by omega))]
  rw [Nat.zero_add]

/-- Witness for the amended C5 at a mixed failure sequence. -/
theorem retry_error_is_last_transport_error_witness :
    (∀ i, i < maxRetries → attemptFailed (oracleA i) = true) ∧
    makeRequestWithRetry oracleA = .failure (lastTransportError oracleA) maxRetries :=
  ⟨by decide, retry_error_is_last_transport_error oracleA (by decide)⟩

/-- Claim C10: when the transport hands back a response, the domain
DELETE helper succeeds exactly for status 200, while the create and
update helpers accept any status in [200, 300). -/
theorem delete_requires_exact_200 (oracle : Nat → Attempt) (s n : Nat)
    (h : makeRequestWithRetry oracle = .success s n) :
    (deleteServiceDomain oracle = .ok () ↔ s = 200) ∧
    (createServiceDomain oracle = .ok () ↔ 200 ≤ s ∧ s < 300) ∧
    (updateServiceDomain oracle = .ok () ↔ 200 ≤ s ∧ s < 300) := by
  unfold deleteServiceDomain createServiceDomain updateServiceDomain handleResponse
  rw [h]
  refine ⟨?_, ?_, ?_⟩
  · by_cases h2 : s = 200 <;> simp [h2]
  · by_cases h2 : 200 ≤ s ∧ s < 300 <;> simp [h2]
  · by_cases h2 : 200 ≤ s ∧ s < 300 <;> simp [h2]

/-- Witness for C10 at a 204 response: DELETE reports an error while
create and update succeed. -/
theorem delete_requires_exact_200_witness :
    makeRequestWithRetry oracle204 = .success 204 1 ∧
    ((deleteServiceDomain oracle204 = .ok () ↔ (204 : Nat) = 200) ∧
      (createServiceDomain oracle204 = .ok () ↔ 200 ≤ 204 ∧ (204 : Nat) < 300) ∧
      (updateServiceDomain oracle204 = .ok () ↔ 200 ≤ 204 ∧ (204 : Nat) < 300)) :=
  ⟨by decide, delete_requires_exact_200 oracle204 204 1 (by decide)⟩

/-! ## Reconciler groundwork: the fetched-domain map -/

/-- `needsUpdate` is false exactly when both compared fields agree. -/
theorem needsUpdate_eq_false_iff (e : DomainResource) (desc vm : String) :
    needsUpdate e desc vm = false ↔ e.description = desc ∧ e.validationMode = vm := by
  simp [needsUpdate]

/-- Entries of a Go-map insertion come from the old map or are the new
binding. -/
theorem mem_insertDomain {m : List (String × DomainResource)} {k : String}
    {v : DomainResource} {p : String × DomainResource}
    (h : p ∈ insertDomain m k v) : p ∈ m ∨ p = (k, v) := by
  unfold insertDomain at h
  rcases List.mem_append.mp h with h | h
  · exact Or.inl (List.mem_of_mem_filter h)
  · simp only [List.mem_singleton] at h
    exact Or.inr h

/-- Entries of the fetched-domain fold come from the accumulator or are
name-keyed bindings of fetched records. -/
theorem mem_mapExistingDomains_aux (l : List DomainResource) :
    ∀ (acc : List (String × DomainResource)) (p : String × DomainResource),
      p ∈ l.foldl (fun m d => insertDomain m d.name d) acc →
      p ∈ acc ∨ ∃ e ∈ l, p = (e.name, e) := by
  induction l with
  | nil => intro acc p h; exact Or.inl h
  | cons d rest ih =>
    intro acc p h
    rcases ih (insertDomain acc d.name d) p h with h2 | h2
    · rcases mem_insertDomain h2 with h3 | h3
      · exact Or.inl h3
      · exact Or.inr ⟨d, List.mem_cons_self d rest, h3⟩
    · rcases h2 with ⟨e, he, hp⟩
      exact Or.inr ⟨e, List.mem_cons_of_mem d he, hp⟩

/-- Every entry of the fetched-domain map is a fetched record keyed by its
own name. -/
theorem mem_mapExistingDomains {E : List DomainResource} {p : String × DomainResource}
    (h : p ∈ mapExistingDomains E) : ∃ e ∈ E, p = (e.name, e) := by
  rcases mem_mapExistingDomains_aux E [] p h with h2 | h2
  · cases h2
  · exact h2

/-- With pairwise distinct names, every Go-map insertion appends, so the
fetched-domain map is the name-keyed pairing of the fetched list. -/
theorem mapExistingDomains_aux_eq (l : List DomainResource) :
    ∀ acc : List (String × DomainResource),
      (∀ p ∈ acc, p.1 ∉ l.map (fun e => e.name)) →
      (l.map (fun e => e.name)).Nodup →
      l.foldl (fun m d => insertDomain m d.name d) acc =
        acc ++ l.map (fun e => (e.name, e)) := by
  induction l with
  | nil => intro acc _ _; simp
  | cons d rest ih =>
    intro acc hacc hnd
    rw [List.map_cons, List.nodup_cons] at hnd
    have hfilter : acc.filter (fun p => p.1 != d.name) = acc := by
      apply List.filter_eq_self.mpr
      intro p hp
      have hne : p.1 ≠ d.name := by
        intro hh
        exact hacc p hp (by simp [hh])
      simp [hne]
    have hins : insertDomain acc d.name d = acc ++ [(d.name, d)] := by
      unfold insertDomain
      rw [hfilter]
    simp only [List.foldl_cons]
    rw [hins, ih (acc ++ [(d.name, d)]) ?_ hnd.2]
    · simp
    · intro p hp
      rcases List.mem_append.mp hp with h | h
      · intro hmem
        exact hacc p h (List.mem_cons_of_mem _ hmem)
      · simp only [List.mem_singleton] at h
        subst h
        exact hnd.1

/-- The fetched-domain map under the unique-names invariant. -/
theorem mapExistingDomains_eq {E : List DomainResource}
    (h : (E.map (fun e => e.name)).Nodup) :
    mapExistingDomains E = E.map (fun e => (e.name, e)) := by
  unfold mapExistingDomains
  rw [mapExistingDomains_aux_eq E [] (by simp) h]
  simp

/-- Lookup over name-keyed pairs is `find?` by name on the records. -/
theorem lookupDomain_map_pairs (E : List DomainResource) (n : String) :
    lookupDomain (E.map (fun e => (e.name, e))) n = E.find? (fun e => e.name == n) := by
  induction E with
  | nil => rfl
  | cons e rest ih =>
    unfold lookupDomain at ih ⊢
    cases h : (e.name == n) with
    | true => simp [h]
    | false =>
      simp only [List.map_cons]
      have h1 : List.find? (fun p => p.1 == n) ((e.name, e) :: rest.map (fun e => (e.name, e))) =
          List.find? (fun p => p.1 == n) (rest.map (fun e => (e.name, e))) :=
        List.find?_cons_of_neg _ (by simpa using h)
      have h2 : List.find? (fun e => e.name == n) (e :: rest) =
          List.find? (fun e => e.name == n) rest :=
        List.find?_cons_of_neg _ (by simpa using h)
      rw [h1, h2]
      exact ih

/-- Lookup in the fetched-domain map, under the unique-names invariant. -/
theorem lookupDomain_eq_find {E : List DomainResource} (n : String)
    (h : (E.map (fun e => e.name)).Nodup) :
    lookupDomain (mapExistingDomains E) n = E.find? (fun e => e.name == n) := by
  rw [mapExistingDomains_eq h, lookupDomain_map_pairs]

/-- A successful lookup in the fetched-domain map returns a fetched record
carrying the looked-up name (no uniqueness needed). -/
theorem lookupDomain_mED_some {E : List DomainResource} {n : String} {r : DomainResource}
    (h : lookupDomain (mapExistingDomains E) n = some r) :
    r ∈ E ∧ r.name = n := by
  unfold lookupDomain at h
  cases hf : (mapExistingDomains E).find? (fun p => p.1 == n) with
  | none => rw [hf] at h; cases h
  | some p =>
    rw [hf] at h
    have hp := List.find?_some hf
    have hmem := List.mem_of_find?_eq_some hf
    obtain ⟨e, he, hpe⟩ := mem_mapExistingDomains hmem
    subst hpe
    simp at h hp
    subst h
    exact ⟨he, hp⟩

/-- `find?` by key returns the unique member with that key when keys are
pairwise distinct. -/
theorem find?_key_eq_of_nodup {α β : Type} [BEq β] [LawfulBEq β] (key : α → β) :
    ∀ (l : List α) (a : α), (l.map key).Nodup → a ∈ l →
      l.find? (fun x => key x == key a) = some a := by
  intro l
  induction l with
  | nil => intro a _ h; cases h
  | cons b rest ih =>
    intro a hnd ha
    rw [List.map_cons, List.nodup_cons] at hnd
    rcases List.mem_cons.mp ha with h | h
    · subst h
      have hstep : List.find? (fun x => key x == key a) (a :: rest) = some a :=
        List.find?_cons_of_pos _ (by simp)
      exact hstep
    · have hstep : List.find? (fun x => key x == key a) (b :: rest) =
          List.find? (fun x => key x == key a) rest :=
        List.find?_cons_of_neg _
          (by
            intro hh
            exact hnd.1 ((eq_of_beq hh) ▸ List.mem_map_of_mem key h))
      rw [hstep]
      exact ih a hnd.2 h

/-! ## Reconciler: decomposing the call trace -/

/-- The add-or-update loop, decomposed: processed names are the desired
names in order, and the calls are those of `genCalls`. -/
theorem processDesired_eq (m : List (String × DomainResource)) :
    ∀ (ds : List DesiredDomain) (processed : List String) (calls : List DomainCall),
      processDesired m ds processed calls =
        (processed ++ ds.map (fun d => d.name), calls ++ genCalls m ds) := by
  intro ds
  induction ds with
  | nil => intro processed calls; simp [processDesired, genCalls]
  | cons d rest ih =>
    intro processed calls
    simp only [processDesired, genCalls]
    rw [ih]
    simp

/-- The reconciler's trace is the add-or-update calls followed by the
delete calls for the unprocessed names. -/
theorem manageServiceDomains_eq (existing : List DomainResource) (desired : List DesiredDomain) :
    manageServiceDomains existing desired =
      genCalls (mapExistingDomains existing) desired ++
        deleteUnusedDomains (mapExistingDomains existing)
          (desired.map (fun d => d.name)) := by
  simp only [manageServiceDomains, processDesired_eq]
  simp

/-- Running an empty call sequence leaves the remote list unchanged. -/
theorem applyCalls_nil (s : List DomainResource) : applyCalls s [] = s := rfl

/-- Running a concatenated call sequence runs the parts in order. -/
theorem applyCalls_append (s : List DomainResource) (c1 c2 : List DomainCall) :
    applyCalls s (c1 ++ c2) = applyCalls (applyCalls s c1) c2 :=
  List.foldl_append _ _ _ _

/-! ## Reconciler: the add-or-update phase -/

/-- `updateBy` never changes the record id. -/
theorem updateBy_id (P : List DesiredDomain) (e : DomainResource) :
    (updateBy P e).id = e.id := by
  unfold updateBy
  cases P.find? (fun d => d.name == e.name) <;> rfl

/-- `updateBy` never changes the record name. -/
theorem updateBy_name (P : List DesiredDomain) (e : DomainResource) :
    (updateBy P e).name = e.name := by
  unfold updateBy
  cases hf : P.find? (fun d => d.name == e.name) with
  | none => rfl
  | some d =>
    have := List.find?_some hf
    simpa using this

/-- A name outside a desired list is not found in it. -/
theorem find?_name_eq_none {P : List DesiredDomain} {n : String}
    (h : n ∉ P.map (fun x => x.name)) :
    P.find? (fun p => p.name == n) = none := by
  rw [List.find?_eq_none]
  intro p hp hbeq
  exact h (by
    have : p.name = n := by simpa using hbeq
    exact this ▸ List.mem_map_of_mem (fun x => x.name) hp)

/-- Appending a desired entry with a different name does not change
`updateBy`. -/
theorem updateBy_append_ne {P : List DesiredDomain} {d : DesiredDomain}
    {e : DomainResource} (h : e.name ≠ d.name) :
    updateBy (P ++ [d]) e = updateBy P e := by
  unfold updateBy
  rw [List.find?_append]
  have hq : List.find? (fun p => p.name == e.name) [d] = none := by
    rw [List.find?_eq_none]
    intro p hp
    simp only [List.mem_singleton] at hp
    subst hp
    simp [Ne.symm h]
  rw [hq]
  cases P.find? (fun p => p.name == e.name) <;> rfl

/-- Appending a desired entry whose name matches a record not named in
the prior desired list rewrites that record to the entry's fields. -/
theorem updateBy_append_eq {P : List DesiredDomain} {d : DesiredDomain}
    {e : DomainResource} (hP : e.name ∉ P.map (fun x => x.name))
    (h : e.name = d.name) :
    updateBy (P ++ [d]) e = ⟨e.id, d.name, d.description, d.validation_mode⟩ := by
  unfold updateBy
  rw [List.find?_append, find?_name_eq_none hP]
  simp [List.find?, h]

/-- A record not named in the desired list is left unchanged by
`updateBy`. -/
theorem updateBy_not_mem {P : List DesiredDomain} {e : DomainResource}
    (h : e.name ∉ P.map (fun x => x.name)) :
    updateBy P e = e := by
  unfold updateBy
  rw [find?_name_eq_none h]

/-- Members of `newRecs` are created records of kept desired entries. -/
theorem mem_newRecs {E : List DomainResource} {P : List DesiredDomain} {r : DomainResource}
    (h : r ∈ newRecs E P) : ∃ d ∈ P, hasName E d.name = false ∧ r = newRec d := by
  unfold newRecs at h
  rw [List.mem_filterMap] at h
  obtain ⟨d, hd, hf⟩ := h
  by_cases hh : hasName E d.name
  · rw [if_pos hh] at hf; cases hf
  · rw [if_neg hh] at hf
    exact ⟨d, hd, by simpa using hh, by injection hf with hf2; exact hf2.symm⟩

/-- A desired entry absent from the fetched list contributes its created
record to `newRecs`. -/
theorem newRec_mem_newRecs {E : List DomainResource} {P : List DesiredDomain}
    {d : DesiredDomain} (hd : d ∈ P) (h : hasName E d.name = false) :
    newRec d ∈ newRecs E P := by
  unfold newRecs
  rw [List.mem_filterMap]
  exact ⟨d, hd, by simp [h]⟩

/-- `newRecs` over an extended desired list. -/
theorem newRecs_append (E : List DomainResource) (P : List DesiredDomain) (d : DesiredDomain) :
    newRecs E (P ++ [d]) =
      newRecs E P ++ (if hasName E d.name then [] else [newRec d]) := by
  unfold newRecs
  rw [List.filterMap_append]
  by_cases h : hasName E d.name <;> simp [h]

/-- Running a single call. -/
theorem applyCalls_singleton (s : List DomainResource) (c : DomainCall) :
    applyCalls s [c] = applyCall s c := rfl

/-- The update call rewrites the records carrying the targeted id. -/
theorem applyCall_update (s : List DomainResource) (i n desc v : String) :
    applyCall s (.update i n desc v) =
      s.map (fun r => if r.id == i then ⟨i, n, desc, v⟩ else r) := rfl

/-- The create call appends the created record. -/
theorem applyCall_create (s : List DomainResource) (n desc v : String) :
    applyCall s (.create n desc v) = s ++ [⟨freshId n, n, desc, v⟩] := rfl

/-- The delete call removes the records carrying the targeted id. -/
theorem applyCall_delete (s : List DomainResource) (i : String) :
    applyCall s (.delete i) = s.filter (fun r => r.id != i) := rfl

/-- The loop body's calls when the desired name is found in the fetched
map. -/
theorem domainCallFor_some {m : List (String × DomainResource)} {d : DesiredDomain}
    {ex : DomainResource} (h : lookupDomain m d.name = some ex) :
    domainCallFor m d =
      if needsUpdate ex d.description d.validation_mode then
        [.update ex.id d.name d.description d.validation_mode]
      else [] := by
  unfold domainCallFor
  rw [h]

/-- The loop body's calls when the desired name is absent from the
fetched map. -/
theorem domainCallFor_none {m : List (String × DomainResource)} {d : DesiredDomain}
    (h : lookupDomain m d.name = none) :
    domainCallFor m d = [.create d.name d.description d.validation_mode] := by
  unfold domainCallFor
  rw [h]

/-- One step of the add-or-update phase, relative to the view
`phaseState`. -/
theorem phaseA_step (E : List DomainResource) (P : List DesiredDomain) (d : DesiredDomain)
    (hname : (E.map (fun e => e.name)).Nodup)
    (hid : (E.map (fun e => e.id)).Nodup)
    (hfreshP : ∀ e ∈ E, ∀ p ∈ P, e.id ≠ freshId p.name)
    (hdP : d.name ∉ P.map (fun x => x.name)) :
    applyCalls (phaseState E P) (domainCallFor (mapExistingDomains E) d) =
      phaseState E (P ++ [d]) := by
  have hnameInj := List.inj_on_of_nodup_map hname
  have hidInj := List.inj_on_of_nodup_map hid
  cases hl : lookupDomain (mapExistingDomains E) d.name with
  | some ex =>
    obtain ⟨hexE, hexname⟩ := lookupDomain_mED_some hl
    have hhas : hasName E d.name = true := by
      simp only [hasName, List.any_eq_true]
      exact ⟨ex, hexE, by simp [hexname]⟩
    have hnewrecs : newRecs E (P ++ [d]) = newRecs E P := by
      rw [newRecs_append, hhas]
      simp
    have hEname : ∀ e ∈ E, e.name = d.name → e = ex := by
      intro e he hn
      exact hnameInj he hexE (by rw [hn, hexname])
    have hEpt : ∀ e ∈ E,
        updateBy (P ++ [d]) e =
          if e.name = d.name then ⟨e.id, d.name, d.description, d.validation_mode⟩
          else updateBy P e := by
      intro e he
      by_cases hn : e.name = d.name
      · rw [if_pos hn, updateBy_append_eq (hn ▸ hdP) hn]
      · rw [if_neg hn, updateBy_append_ne hn]
    rw [domainCallFor_some hl]
    by_cases hup : needsUpdate ex d.description d.validation_mode = true
    · rw [if_pos hup, applyCalls_singleton]
      unfold phaseState
      rw [applyCall_update, List.map_append, List.map_map, hnewrecs]
      congr 1
      · apply List.map_congr_left
        intro e he
        show (fun r => if r.id == ex.id then
            (⟨ex.id, d.name, d.description, d.validation_mode⟩ : DomainResource) else r)
            (updateBy P e) = updateBy (P ++ [d]) e
        rw [hEpt e he]
        by_cases hn : e.name = d.name
        · have hex : e = ex := hEname e he hn
          rw [if_pos hn]
          have hPe : updateBy P e = e := updateBy_not_mem (hn ▸ hdP)
          simp only [hPe]
          rw [if_pos (by simp [hex]), hex]
        · rw [if_neg hn]
          have hide : (updateBy P e).id = e.id := updateBy_id P e
          have hfalse : (((updateBy P e).id == ex.id) : Bool) = false := by
            rw [hide]
            simp only [beq_eq_false_iff_ne]
            intro hh
            exact hn (by rw [hidInj he hexE hh, hexname])
          simp only [hfalse]
          simp
      · have hpt : ∀ r ∈ newRecs E P,
            (fun r => if r.id == ex.id then
              (⟨ex.id, d.name, d.description, d.validation_mode⟩ : DomainResource)
            else r) r = id r := by
          intro r hr
          obtain ⟨p, hp, _, hrec⟩ := mem_newRecs hr
          have hfalse : ((r.id == ex.id) : Bool) = false := by
            simp only [beq_eq_false_iff_ne]
            rw [hrec]
            intro hh
            exact hfreshP ex hexE p hp hh.symm
          simp only [hfalse]
          simp
        rw [List.map_congr_left hpt, List.map_id]
    · rw [if_neg hup, applyCalls_nil]
      have hff : needsUpdate ex d.description d.validation_mode = false := by
        simpa using hup
      rw [needsUpdate_eq_false_iff] at hff
      unfold phaseState
      rw [hnewrecs]
      congr 1
      apply List.map_congr_left
      intro e he
      rw [hEpt e he]
      by_cases hn : e.name = d.name
      · have hex : e = ex := hEname e he hn
        have hd1 : e.description = d.description := by rw [hex]; exact hff.1
        have hd2 : e.validationMode = d.validation_mode := by rw [hex]; exact hff.2
        rw [updateBy_not_mem (hn ▸ hdP), if_pos hn, ← hn, ← hd1, ← hd2]
      · rw [if_neg hn]
  | none =>
    have hfind : E.find? (fun e => e.name == d.name) = none := by
      rw [← lookupDomain_eq_find d.name hname]
      exact hl
    rw [List.find?_eq_none] at hfind
    have hnone : ∀ e ∈ E, e.name ≠ d.name := by
      intro e he
      have := hfind e he
      simpa using this
    have hhas : hasName E d.name = false := by
      simp only [hasName, List.any_eq_false]
      intro e he
      simpa using hnone e he
    rw [domainCallFor_none hl, applyCalls_singleton, applyCall_create]
    unfold phaseState
    rw [newRecs_append, hhas]
    have hmap : E.map (updateBy (P ++ [d])) = E.map (updateBy P) :=
      List.map_congr_left (fun e he => updateBy_append_ne (hnone e he))
    rw [hmap]
    simp [newRec, List.append_assoc]

/-- The add-or-update phase, end to end: with unique remote names and
ids, fresh created ids, and no duplicate desired names, applying the
phase's calls yields the `phaseState` view. -/
theorem phaseA (E : List DomainResource) (D : List DesiredDomain)
    (hname : (E.map (fun e => e.name)).Nodup)
    (hid : (E.map (fun e => e.id)).Nodup)
    (hfresh : ∀ e ∈ E, ∀ d ∈ D, e.id ≠ freshId d.name)
    (hD : (D.map (fun d => d.name)).Nodup) :
    applyCalls E (genCalls (mapExistingDomains E) D) = phaseState E D := by
  have hstate0 : phaseState E [] = E := by
    unfold phaseState newRecs
    have h1 : ∀ e ∈ E, updateBy [] e = id e := fun e _ => updateBy_not_mem (by simp)
    rw [List.map_congr_left h1, List.map_id]
    simp
  have main : ∀ (tail P : List DesiredDomain), P ++ tail = D →
      applyCalls (phaseState E P) (genCalls (mapExistingDomains E) tail) = phaseState E D := by
    intro tail
    induction tail with
    | nil =>
      intro P hP
      rw [List.append_nil] at hP
      subst hP
      rfl
    | cons d rest ih =>
      intro P hP
      have hsub : ∀ p ∈ P, p ∈ D := by
        intro p hp
        rw [← hP]
        exact List.mem_append_left _ hp
      have hdP : d.name ∉ P.map (fun x => x.name) := by
        have hD2 : ((P ++ d :: rest).map (fun x => x.name)).Nodup := by
          rw [hP]
          exact hD
        rw [List.map_append] at hD2
        have hdisj := (List.nodup_append.mp hD2).2.2
        intro hmem
        exact hdisj hmem (by simp)
      have hfreshP : ∀ e ∈ E, ∀ p ∈ P, e.id ≠ freshId p.name := by
        intro e he p hp
        exact hfresh e he p (hsub p hp)
      rw [show genCalls (mapExistingDomains E) (d :: rest) =
          domainCallFor (mapExistingDomains E) d ++
            genCalls (mapExistingDomains E) rest from rfl]
      rw [applyCalls_append, phaseA_step E P d hname hid hfreshP hdP]
      exact ih (P ++ [d]) (by rw [← hP]; simp)
  have hmain := main D [] (by simp)
  rw [hstate0] at hmain
  exact hmain

/-! ## Reconciler: the delete phase -/

/-- Under the unique-names invariant the delete phase issues exactly the
delete calls for `delIds`. -/
theorem deleteUnusedDomains_eq (E : List DomainResource) (D : List DesiredDomain)
    (hname : (E.map (fun e => e.name)).Nodup) :
    deleteUnusedDomains (mapExistingDomains E) (D.map (fun d => d.name)) =
      (delIds E D).map DomainCall.delete := by
  rw [mapExistingDomains_eq hname]
  unfold deleteUnusedDomains delIds
  rw [List.filterMap_map, List.map_filterMap]
  congr 1
  funext e
  simp only [Function.comp]
  by_cases h : ((D.map (fun d => d.name)).contains e.name || isDefaultDomain e.name) = true
  · rw [if_pos h, if_pos h]
    rfl
  · rw [if_neg h, if_neg h]
    rfl

/-- Applying a sequence of delete calls filters out the targeted ids. -/
theorem applyCalls_deletes (ids : List String) :
    ∀ s : List DomainResource,
      applyCalls s (ids.map DomainCall.delete) =
        s.filter (fun r => !(ids.contains r.id)) := by
  induction ids with
  | nil =>
    intro s
    rw [List.map_nil, applyCalls_nil]
    have : ∀ r ∈ s, (!(([] : List String).contains r.id)) = true := by
      intro r _
      rfl
    rw [List.filter_eq_self.mpr this]
  | cons i rest ih =>
    intro s
    rw [List.map_cons]
    rw [show applyCalls s (DomainCall.delete i :: rest.map DomainCall.delete) =
        applyCalls (applyCall s (.delete i)) (rest.map DomainCall.delete) from rfl]
    rw [ih, applyCall_delete, List.filter_filter]
    apply List.filter_congr
    intro r _
    show (!(rest.contains r.id) && (r.id != i)) = !((i :: rest).contains r.id)
    rw [List.contains_cons]
    by_cases h : r.id = i
    · simp [h]
    · simp [bne, Bool.and_comm, h]

/-- The remote list after a successful reconciliation run, as a closed
view: the add-or-update phase view filtered by the delete phase. -/
theorem runReconcile_eq (E : List DomainResource) (D : List DesiredDomain)
    (hname : (E.map (fun e => e.name)).Nodup)
    (hid : (E.map (fun e => e.id)).Nodup)
    (hfresh : ∀ e ∈ E, ∀ d ∈ D, e.id ≠ freshId d.name)
    (hD : (D.map (fun d => d.name)).Nodup) :
    runReconcile E D =
      (phaseState E D).filter (fun r => !((delIds E D).contains r.id)) := by
  unfold runReconcile
  rw [manageServiceDomains_eq, applyCalls_append, phaseA E D hname hid hfresh hD,
    deleteUnusedDomains_eq E D hname, applyCalls_deletes]

/-! ## Reconciler: membership characterizations -/

/-- Unpacking membership in `delIds`. -/
theorem mem_delIds_elim {E : List DomainResource} {D : List DesiredDomain} {i : String}
    (h : i ∈ delIds E D) :
    ∃ e ∈ E, ((D.map (fun d => d.name)).contains e.name || isDefaultDomain e.name) = false ∧
      e.id = i := by
  unfold delIds at h
  rw [List.mem_filterMap] at h
  obtain ⟨e, he, hf⟩ := h
  by_cases hc : ((D.map (fun d => d.name)).contains e.name || isDefaultDomain e.name) = true
  · rw [if_pos hc] at hf
    cases hf
  · rw [if_neg hc] at hf
    injection hf with hf
    exact ⟨e, he, by simpa using hc, hf⟩

/-- Building membership in `delIds`. -/
theorem mem_delIds_intro {E : List DomainResource} {D : List DesiredDomain}
    {e : DomainResource} (he : e ∈ E)
    (hc : ((D.map (fun d => d.name)).contains e.name || isDefaultDomain e.name) = false) :
    e.id ∈ delIds E D := by
  unfold delIds
  rw [List.mem_filterMap]
  refine ⟨e, he, ?_⟩
  have hne : ¬(((D.map (fun d => d.name)).contains e.name || isDefaultDomain e.name) = true) := by
    intro h
    rw [h] at hc
    cases hc
  rw [if_neg hne]

/-- A record whose name is desired or default is not deleted (its id is
not in `delIds`), given unique remote ids. -/
theorem not_mem_delIds_of_kept {E : List DomainResource} {D : List DesiredDomain}
    (hid : (E.map (fun e => e.id)).Nodup) {e : DomainResource} (he : e ∈ E)
    (hc : ((D.map (fun d => d.name)).contains e.name || isDefaultDomain e.name) = true) :
    e.id ∉ delIds E D := by
  intro hmem
  obtain ⟨e', he', hc', hi⟩ := mem_delIds_elim hmem
  have heq : e' = e := List.inj_on_of_nodup_map hid he' he hi
  subst heq
  rw [hc] at hc'
  cases hc'

/-- Freshly created ids are never deleted. -/
theorem not_mem_delIds_fresh {E : List DomainResource} {D : List DesiredDomain}
    (hfresh : ∀ e ∈ E, ∀ d ∈ D, e.id ≠ freshId d.name) {d : DesiredDomain} (hd : d ∈ D) :
    freshId d.name ∉ delIds E D := by
  intro hmem
  obtain ⟨e', he', _, hi⟩ := mem_delIds_elim hmem
  exact hfresh e' he' d hd hi

/-- `updateBy` when the record's name is found among the desired. -/
theorem updateBy_eq_some {P : List DesiredDomain} {e : DomainResource} {d' : DesiredDomain}
    (hf : P.find? (fun p => p.name == e.name) = some d') :
    updateBy P e = ⟨e.id, d'.name, d'.description, d'.validation_mode⟩ := by
  unfold updateBy
  rw [hf]

/-- `updateBy` when the record's name is absent from the desired. -/
theorem updateBy_eq_none {P : List DesiredDomain} {e : DomainResource}
    (hf : P.find? (fun p => p.name == e.name) = none) :
    updateBy P e = e := by
  unfold updateBy
  rw [hf]

/-- After the add-or-update phase, every record named like a desired
entry carries that entry's fields (no duplicate desired names). -/
theorem phaseState_fields {E : List DomainResource} {D : List DesiredDomain}
    (hD : (D.map (fun d => d.name)).Nodup) :
    ∀ d ∈ D, ∀ r ∈ phaseState E D, r.name = d.name →
      r.description = d.description ∧ r.validationMode = d.validation_mode := by
  have hDinj := List.inj_on_of_nodup_map hD
  intro d hd r hr hrname
  unfold phaseState at hr
  rcases List.mem_append.mp hr with hr | hr
  · rw [List.mem_map] at hr
    obtain ⟨e, he, hre⟩ := hr
    subst hre
    cases hf : D.find? (fun p => p.name == e.name) with
    | some d' =>
      rw [updateBy_eq_some hf] at hrname ⊢
      dsimp only at hrname ⊢
      have hd' : d' ∈ D := List.mem_of_find?_eq_some hf
      have heq : d' = d := hDinj hd' hd hrname
      subst heq
      exact ⟨rfl, rfl⟩
    | none =>
      rw [updateBy_eq_none hf] at hrname
      rw [List.find?_eq_none] at hf
      exact absurd (by simp [hrname] : (d.name == e.name) = true) (hf d hd)
  · obtain ⟨d', hd', _, hrec⟩ := mem_newRecs hr
    subst hrec
    have heq : d' = d := hDinj hd' hd hrname
    subst heq
    exact ⟨rfl, rfl⟩

/-- Every survivor of a reconciliation run is either desired by name or a
default-named remote record. -/
theorem reconcile_mem_names {E : List DomainResource} {D : List DesiredDomain}
    (hname : (E.map (fun e => e.name)).Nodup)
    (hid : (E.map (fun e => e.id)).Nodup)
    (hfresh : ∀ e ∈ E, ∀ d ∈ D, e.id ≠ freshId d.name)
    (hD : (D.map (fun d => d.name)).Nodup) :
    ∀ r ∈ runReconcile E D,
      (∃ d ∈ D, d.name = r.name) ∨
        ((∃ e ∈ E, e.name = r.name) ∧ isDefaultDomain r.name = true) := by
  intro r hr
  rw [runReconcile_eq E D hname hid hfresh hD] at hr
  rw [List.mem_filter] at hr
  obtain ⟨hrp, hpred⟩ := hr
  unfold phaseState at hrp
  rcases List.mem_append.mp hrp with hrE | hrN
  · rw [List.mem_map] at hrE
    obtain ⟨e, he, hre⟩ := hrE
    subst hre
    cases hf : D.find? (fun p => p.name == e.name) with
    | some d' =>
      left
      refine ⟨d', List.mem_of_find?_eq_some hf, ?_⟩
      rw [updateBy_name]
      simpa using List.find?_some hf
    | none =>
      right
      have hre : updateBy D e = e := updateBy_eq_none hf
      rw [hre] at hpred ⊢
      have hnotdel : e.id ∉ delIds E D := by
        intro hmem
        simp at hpred
        exact hpred hmem
      have hmemn : e.name ∉ D.map (fun d => d.name) := by
        rw [List.find?_eq_none] at hf
        intro hmem
        rw [List.mem_map] at hmem
        obtain ⟨d2, hd2, hd2n⟩ := hmem
        exact hf d2 hd2 (by simp [hd2n])
      have hnames : (D.map (fun d => d.name)).contains e.name = false := by
        simpa using hmemn
      by_cases hdef : isDefaultDomain e.name = true
      · exact ⟨⟨e, he, rfl⟩, hdef⟩
      · exfalso
        apply hnotdel
        apply mem_delIds_intro he
        rw [hnames]
        simp [hdef]
  · obtain ⟨d', hd', _, hrec⟩ := mem_newRecs hrN
    subst hrec
    exact Or.inl ⟨d', hd', rfl⟩

/-- Every desired name, and every default-named remote record, survives
a reconciliation run. -/
theorem reconcile_names_complete {E : List DomainResource} {D : List DesiredDomain}
    (hname : (E.map (fun e => e.name)).Nodup)
    (hid : (E.map (fun e => e.id)).Nodup)
    (hfresh : ∀ e ∈ E, ∀ d ∈ D, e.id ≠ freshId d.name)
    (hD : (D.map (fun d => d.name)).Nodup) :
    (∀ d ∈ D, ∃ r ∈ runReconcile E D, r.name = d.name) ∧
      (∀ e ∈ E, isDefaultDomain e.name = true →
        ∃ r ∈ runReconcile E D, r.name = e.name) := by
  have hrw := runReconcile_eq E D hname hid hfresh hD
  constructor
  · intro d hd
    by_cases hE : ∃ e ∈ E, e.name = d.name
    · obtain ⟨e, he, hen⟩ := hE
      refine ⟨updateBy D e, ?_, ?_⟩
      · rw [hrw, List.mem_filter]
        constructor
        · exact List.mem_append_left _ (List.mem_map_of_mem _ he)
        · rw [updateBy_id]
          have hnot : e.id ∉ delIds E D := by
            apply not_mem_delIds_of_kept hid he
            have hmm : e.name ∈ D.map (fun d => d.name) := by
              rw [hen]
              exact List.mem_map_of_mem _ hd
            have hcont : (D.map (fun d => d.name)).contains e.name = true := by
              simpa using hmm
            rw [hcont]
            rfl
          simpa using hnot
      · rw [updateBy_name]
        exact hen
    · push_neg at hE
      have hhas : hasName E d.name = false := by
        simp only [hasName, List.any_eq_false]
        intro e he
        simp [hE e he]
      refine ⟨newRec d, ?_, rfl⟩
      rw [hrw, List.mem_filter]
      constructor
      · exact List.mem_append_right _ (newRec_mem_newRecs hd hhas)
      · simpa using not_mem_delIds_fresh hfresh hd
  · intro e he hdef
    refine ⟨updateBy D e, ?_, updateBy_name D e⟩
    rw [hrw, List.mem_filter]
    refine ⟨List.mem_append_left _ (List.mem_map_of_mem _ he), ?_⟩
    rw [updateBy_id]
    have hnot : e.id ∉ delIds E D := by
      apply not_mem_delIds_of_kept hid he
      rw [hdef]
      simp
    simpa using hnot

/-- The add-or-update phase never issues a delete call. -/
theorem genCalls_no_delete (m : List (String × DomainResource)) :
    ∀ (ds : List DesiredDomain) (i : String), DomainCall.delete i ∉ genCalls m ds := by
  intro ds
  induction ds with
  | nil => intro i h; cases h
  | cons d rest ih =>
    intro i h
    rw [show genCalls m (d :: rest) = domainCallFor m d ++ genCalls m rest from rfl] at h
    rcases List.mem_append.mp h with h | h
    · cases hl : lookupDomain m d.name with
      | some ex =>
        rw [domainCallFor_some hl] at h
        by_cases hu : needsUpdate ex d.description d.validation_mode = true
        · rw [if_pos hu] at h
          simp at h
        · rw [if_neg hu] at h
          cases h
      | none =>
        rw [domainCallFor_none hl] at h
        simp at h
    · exact ih i h

/-! ## Claims about the domain reconciler -/

/-- Counterexample to C1 as stated: with the duplicate desired list `D0`
(name `a.com` desired first with description `d1`, then with `d2`) over
the remote set `E0` (where `a.com` carries `d2`), the run leaves `a.com`
with description `d1`, so the surviving record does not carry the
desired fields of every occurrence. -/
theorem convergence_counterexample :
    ¬ (∀ d ∈ D0, ∀ r ∈ runReconcile E0 D0, r.name = d.name →
        r.description = d.description ∧ r.validationMode = d.validation_mode) := by
  decide

/-- Claim C1 (amended): assuming the remote invariants (unique names,
unique ids, server-assigned fresh ids) and a desired list without
duplicate names, after a successful reconciliation the remote set equals,
by name, the default-suffixed members of the existing set united with
the desired names, and every surviving record named like a desired entry
carries that entry's description and validation mode. -/
theorem manage_domains_convergence (E : List DomainResource) (D : List DesiredDomain)
    (hname : (E.map (fun e => e.name)).Nodup)
    (hid : (E.map (fun e => e.id)).Nodup)
    (hfresh : ∀ e ∈ E, ∀ d ∈ D, e.id ≠ freshId d.name)
    (hD : (D.map (fun d => d.name)).Nodup) :
    (∀ n : String,
      (∃ r ∈ runReconcile E D, r.name = n) ↔
        (((∃ e ∈ E, e.name = n) ∧ isDefaultDomain n = true) ∨ ∃ d ∈ D, d.name = n)) ∧
    (∀ d ∈ D, ∀ r ∈ runReconcile E D, r.name = d.name →
      r.description = d.description ∧ r.validationMode = d.validation_mode) := by
  obtain ⟨hcomD, hcomE⟩ := reconcile_names_complete hname hid hfresh hD
  constructor
  · intro n
    constructor
    · rintro ⟨r, hr, hrn⟩
      rcases reconcile_mem_names hname hid hfresh hD r hr with
        ⟨d, hd, hdn⟩ | ⟨⟨e, he, hen⟩, hdef⟩
      · right
        exact ⟨d, hd, by rw [hdn, hrn]⟩
      · left
        exact ⟨⟨e, he, by rw [hen, hrn]⟩, by rw [← hrn]; exact hdef⟩
    · rintro (⟨⟨e, he, hen⟩, hdef⟩ | ⟨d, hd, hdn⟩)
      · obtain ⟨r, hr, hrn⟩ := hcomE e he (by rw [hen]; exact hdef)
        exact ⟨r, hr, by rw [hrn, hen]⟩
      · obtain ⟨r, hr, hrn⟩ := hcomD d hd
        exact ⟨r, hr, by rw [hrn, hdn]⟩
  · intro d hd r hr hrn
    rw [runReconcile_eq E D hname hid hfresh hD] at hr
    exact phaseState_fields hD d hd r (List.mem_filter.mp hr).1 hrn

/-- Witness for the amended C1 at the concrete sets `E1`, `D1`. -/
theorem manage_domains_convergence_witness :
    ((E1.map (fun e => e.name)).Nodup ∧ (E1.map (fun e => e.id)).Nodup ∧
      (∀ e ∈ E1, ∀ d ∈ D1, e.id ≠ freshId d.name) ∧
      (D1.map (fun d => d.name)).Nodup) ∧
    ((∀ n : String,
      (∃ r ∈ runReconcile E1 D1, r.name = n) ↔
        (((∃ e ∈ E1, e.name = n) ∧ isDefaultDomain n = true) ∨ ∃ d ∈ D1, d.name = n)) ∧
    (∀ d ∈ D1, ∀ r ∈ runReconcile E1 D1, r.name = d.name →
      r.description = d.description ∧ r.validationMode = d.validation_mode)) :=
  ⟨⟨by decide, by decide, by decide, by decide⟩,
    manage_domains_convergence E1 D1 (by decide) (by decide) (by decide) (by decide)⟩

/-- Claim C4: the reconciler never issues a delete call for a remote
domain whose name carries the default suffix, for any desired list
(including the empty one), given the unique-remote-ids invariant. -/
theorem default_domains_never_deleted (existing : List DomainResource)
    (desired : List DesiredDomain)
    (hid : (existing.map (fun e => e.id)).Nodup) :
    ∀ e ∈ existing, isDefaultDomain e.name = true →
      DomainCall.delete e.id ∉ manageServiceDomains existing desired := by
  intro e he hdef hmem
  rw [manageServiceDomains_eq] at hmem
  rcases List.mem_append.mp hmem with hmem | hmem
  · exact genCalls_no_delete (mapExistingDomains existing) desired e.id hmem
  · unfold deleteUnusedDomains at hmem
    rw [List.mem_filterMap] at hmem
    obtain ⟨p, hp, hf⟩ := hmem
    obtain ⟨e', he', hpe⟩ := mem_mapExistingDomains hp
    subst hpe
    by_cases hc :
        ((desired.map (fun d => d.name)).contains e'.name || isDefaultDomain e'.name) = true
    · rw [if_pos hc] at hf
      cases hf
    · rw [if_neg hc] at hf
      injection hf with hf2
      injection hf2 with hf3
      have heq : e' = e := List.inj_on_of_nodup_map hid he' he hf3
      subst heq
      apply hc
      rw [hdef]
      simp

/-! ## Reconciler: idempotence machinery -/

/-- The names after the add-or-update phase are the remote names followed
by the kept created names. -/
theorem phaseState_names (E : List DomainResource) (D : List DesiredDomain) :
    (phaseState E D).map (fun r => r.name) =
      E.map (fun e => e.name) ++ (newRecs E D).map (fun r => r.name) := by
  unfold phaseState
  rw [List.map_append, List.map_map]
  congr 1
  exact List.map_congr_left (fun e _ => updateBy_name D e)

/-- The created names form a sublist of the desired names. -/
theorem newRecs_names_sublist (E : List DomainResource) :
    ∀ D : List DesiredDomain,
      ((newRecs E D).map (fun r => r.name)).Sublist (D.map (fun d => d.name)) := by
  intro D
  induction D with
  | nil => simp [newRecs]
  | cons d rest ih =>
    unfold newRecs at ih ⊢
    by_cases h : hasName E d.name = true
    · rw [show List.filterMap (fun d => if hasName E d.name = true then none
          else some (newRec d)) (d :: rest) =
          List.filterMap (fun d => if hasName E d.name = true then none
            else some (newRec d)) rest from
          List.filterMap_cons_none (by rw [if_pos h])]
      exact ih.cons _
    · rw [show List.filterMap (fun d => if hasName E d.name = true then none
          else some (newRec d)) (d :: rest) =
          newRec d :: List.filterMap (fun d => if hasName E d.name = true then none
            else some (newRec d)) rest from
          List.filterMap_cons_some (by rw [if_neg h])]
      rw [List.map_cons, List.map_cons]
      have hhead : (newRec d).name = d.name := rfl
      rw [hhead]
      exact ih.cons₂ _

/-- With unique remote names and no duplicate desired names, the names
after the add-or-update phase are pairwise distinct. -/
theorem phaseState_names_nodup {E : List DomainResource} {D : List DesiredDomain}
    (hname : (E.map (fun e => e.name)).Nodup)
    (hD : (D.map (fun d => d.name)).Nodup) :
    ((phaseState E D).map (fun r => r.name)).Nodup := by
  rw [phaseState_names, List.nodup_append]
  refine ⟨hname, List.Nodup.sublist (newRecs_names_sublist E D) hD, ?_⟩
  intro n hn1 hn2
  rw [List.mem_map] at hn1 hn2
  obtain ⟨e, he, hen⟩ := hn1
  obtain ⟨r, hr, hrn⟩ := hn2
  obtain ⟨d', hd', hhas, hrec⟩ := mem_newRecs hr
  have hdn : d'.name = n := by
    rw [← hrn, hrec]
    rfl
  simp only [hasName, List.any_eq_false] at hhas
  exact hhas e he (by simp [hen, hdn])

/-- The names surviving a reconciliation run are pairwise distinct. -/
theorem runReconcile_names_nodup {E : List DomainResource} {D : List DesiredDomain}
    (hname : (E.map (fun e => e.name)).Nodup)
    (hid : (E.map (fun e => e.id)).Nodup)
    (hfresh : ∀ e ∈ E, ∀ d ∈ D, e.id ≠ freshId d.name)
    (hD : (D.map (fun d => d.name)).Nodup) :
    ((runReconcile E D).map (fun r => r.name)).Nodup := by
  rw [runReconcile_eq E D hname hid hfresh hD]
  exact List.Nodup.sublist
    (List.Sublist.map _ (List.filter_sublist _)) (phaseState_names_nodup hname hD)

/-- If no desired entry needs a call, the add-or-update phase issues
none. -/
theorem genCalls_eq_nil {m : List (String × DomainResource)} :
    ∀ {ds : List DesiredDomain}, (∀ d ∈ ds, domainCallFor m d = []) → genCalls m ds = [] := by
  intro ds
  induction ds with
  | nil => intro _; rfl
  | cons d rest ih =>
    intro h
    rw [show genCalls m (d :: rest) = domainCallFor m d ++ genCalls m rest from rfl]
    rw [h d (by simp), ih (fun d' hd' => h d' (by simp [hd']))]
    rfl

/-- Counterexample to C3 as stated: with the duplicate desired list `D0`
over the remote set `E0`, a second reconciliation right after a
successful one still issues a call (the two occurrences of `a.com`
oscillate). -/
theorem idempotence_counterexample :
    manageServiceDomains (runReconcile E0 D0) D0 ≠ [] := by decide

/-- Claim C3 (amended): assuming the remote invariants (unique names,
unique ids, fresh created ids) and a desired list without duplicate
names, reconciling the same desired list immediately after a successful
run issues zero create, update, and delete calls. -/
theorem manage_domains_idempotent (E : List DomainResource) (D : List DesiredDomain)
    (hname : (E.map (fun e => e.name)).Nodup)
    (hid : (E.map (fun e => e.id)).Nodup)
    (hfresh : ∀ e ∈ E, ∀ d ∈ D, e.id ≠ freshId d.name)
    (hD : (D.map (fun d => d.name)).Nodup) :
    manageServiceDomains (runReconcile E D) D = [] := by
  have hFname := runReconcile_names_nodup hname hid hfresh hD
  obtain ⟨hcomD, _⟩ := reconcile_names_complete hname hid hfresh hD
  have hmem_names := reconcile_mem_names hname hid hfresh hD
  rw [manageServiceDomains_eq]
  have h1 : genCalls (mapExistingDomains (runReconcile E D)) D = [] := by
    apply genCalls_eq_nil
    intro d hd
    obtain ⟨r, hr, hrn⟩ := hcomD d hd
    have hlook : lookupDomain (mapExistingDomains (runReconcile E D)) d.name = some r := by
      rw [lookupDomain_eq_find d.name hFname]
      have hfind := find?_key_eq_of_nodup (fun x : DomainResource => x.name)
        (runReconcile E D) r hFname hr
      dsimp only at hfind
      rw [hrn] at hfind
      exact hfind
    rw [domainCallFor_some hlook]
    have hrp : r ∈ phaseState E D := by
      have hr2 := hr
      rw [runReconcile_eq E D hname hid hfresh hD] at hr2
      exact (List.mem_filter.mp hr2).1
    have hfield := phaseState_fields hD d hd r hrp hrn
    have hfalse : needsUpdate r d.description d.validation_mode = false := by
      rw [needsUpdate_eq_false_iff]
      exact hfield
    rw [if_neg (by simp [hfalse])]
  have h2 : deleteUnusedDomains (mapExistingDomains (runReconcile E D))
      (D.map (fun d => d.name)) = [] := by
    rw [mapExistingDomains_eq hFname]
    unfold deleteUnusedDomains
    rw [List.filterMap_map, List.filterMap_eq_nil_iff]
    intro r hr
    simp only [Function.comp]
    have hcond : ((D.map (fun d => d.name)).contains r.name || isDefaultDomain r.name) = true := by
      rcases hmem_names r hr with ⟨d, hd, hdn⟩ | ⟨_, hdef⟩
      · have hmm : r.name ∈ D.map (fun d => d.name) := by
          rw [← hdn]
          exact List.mem_map_of_mem _ hd
        have hcont : (D.map (fun d => d.name)).contains r.name = true := by simpa using hmm
        rw [hcont]
        rfl
      · rw [hdef]
        simp
    rw [if_pos hcond]
  rw [h1, h2]
  rfl

/-- Witness for the amended C3 at the concrete sets `E1`, `D1`. -/
theorem manage_domains_idempotent_witness :
    ((E1.map (fun e => e.name)).Nodup ∧ (E1.map (fun e => e.id)).Nodup ∧
      (∀ e ∈ E1, ∀ d ∈ D1, e.id ≠ freshId d.name) ∧
      (D1.map (fun d => d.name)).Nodup) ∧
    manageServiceDomains (runReconcile E1 D1) D1 = [] :=
  ⟨⟨by decide, by decide, by decide, by decide⟩,
    manage_domains_idempotent E1 D1 (by decide) (by decide) (by decide) (by decide)⟩

/-- Witness for C4 at the concrete sets `E1`, `D1` and the default
domain `svc.cachefly.net`. -/
theorem default_domains_never_deleted_witness :
    (E1.map (fun e => e.id)).Nodup ∧
    ((⟨"i2", "svc.cachefly.net", "", "NONE"⟩ : DomainResource) ∈ E1 ∧
      isDefaultDomain "svc.cachefly.net" = true) ∧
    DomainCall.delete "i2" ∉ manageServiceDomains E1 D1 :=
  ⟨by decide, ⟨by decide, by decide⟩,
    default_domains_never_deleted E1 D1 (by decide)
      ⟨"i2", "svc.cachefly.net", "", "NONE"⟩ (by decide) (by decide)⟩

/-! ## Claims about duplicate desired names -/

/-- Restricting the add-or-update calls to one name selects exactly the
calls generated by the occurrences of that name. -/
theorem genCalls_filter_name (m : List (String × DomainResource)) (n : String) :
    ∀ ds : List DesiredDomain,
      (genCalls m ds).filter (isCallForName n) =
        genCalls m (ds.filter (fun d => d.name == n)) := by
  intro ds
  induction ds with
  | nil => rfl
  | cons d rest ih =>
    rw [show genCalls m (d :: rest) = domainCallFor m d ++ genCalls m rest from rfl]
    rw [List.filter_append, ih, List.filter_cons]
    by_cases h : (d.name == n) = true
    · rw [if_pos (by simpa using h)]
      rw [show genCalls m (d :: rest.filter (fun d => d.name == n)) =
          domainCallFor m d ++ genCalls m (rest.filter (fun d => d.name == n)) from rfl]
      congr 1
      cases hl : lookupDomain m d.name with
      | some ex =>
        rw [domainCallFor_some hl]
        by_cases hu : needsUpdate ex d.description d.validation_mode = true
        · rw [if_pos hu]
          simp [isCallForName, h]
        · rw [if_neg hu]
          rfl
      | none =>
        rw [domainCallFor_none hl]
        simp [isCallForName, h]
    · rw [if_neg (by simpa using h)]
      have hdrop : (domainCallFor m d).filter (isCallForName n) = [] := by
        cases hl : lookupDomain m d.name with
        | some ex =>
          rw [domainCallFor_some hl]
          by_cases hu : needsUpdate ex d.description d.validation_mode = true
          · rw [if_pos hu]
            simp [isCallForName, h]
          · rw [if_neg hu]
            rfl
        | none =>
          rw [domainCallFor_none hl]
          simp [isCallForName, h]
      rw [hdrop]
      rfl

/-- Delete calls never carry a create/update name. -/
theorem deleteUnusedDomains_filter_name (n : String)
    (m : List (String × DomainResource)) (processed : List String) :
    (deleteUnusedDomains m processed).filter (isCallForName n) = [] := by
  rw [List.filter_eq_nil_iff]
  intro c hc
  unfold deleteUnusedDomains at hc
  rw [List.mem_filterMap] at hc
  obtain ⟨p, _, hf⟩ := hc
  by_cases h : (processed.contains p.1 || isDefaultDomain p.1) = true
  · rw [if_pos h] at hf
    cases hf
  · rw [if_neg h] at hf
    injection hf with hf2
    rw [← hf2]
    simp [isCallForName]

/-- Counterexample to C8 as stated: over `E0` (where `a.com` remotely
carries description `d2`) and the duplicate desired list `D0`
(`a.com` with `d1`, then `a.com` with `d2`), the only create/update call
issued for `a.com` carries the FIRST occurrence's description `d1`,
while the last occurrence carries `d2`: the second occurrence matches
the stale fetched record and issues no call, so the last occurrence does
not determine the call issued. -/
theorem duplicate_last_occurrence_counterexample :
    (manageServiceDomains E0 D0).filter (isCallForName "a.com") =
      [DomainCall.update "i1" "a.com" "d1" "NONE"] ∧
    D0.getLast? = some ⟨"a.com", "d2", "NONE"⟩ ∧
    ("d1" : String) ≠ "d2" := by decide

/-- Claim C8 (amended): with duplicate desired names, every occurrence is
diffed independently against the initially fetched remote state: the
create/update calls issued for a name are exactly those generated, in
list order, by the occurrences of that name (an occurrence matching the
fetched record issues no call, even if an earlier occurrence changed the
remote state). -/
theorem duplicate_names_per_occurrence (existing : List DomainResource)
    (desired : List DesiredDomain) (n : String) :
    (manageServiceDomains existing desired).filter (isCallForName n) =
      genCalls (mapExistingDomains existing)
        (desired.filter (fun d => d.name == n)) := by
  rw [manageServiceDomains_eq, List.filter_append, genCalls_filter_name,
    deleteUnusedDomains_filter_name]
  rw [List.append_nil]

/-! ## Claims about the options configurator -/

/-- Counterexample to C6 as stated: enabling OBJECT_STORAGE with an
empty secret key over a disabled current state returns the local
validation error, but the trace is not empty — the initial options
fetch (a GET) was already issued. -/
theorem reverse_proxy_validation_counterexample :
    (configureReverseProxy rpDisabled rpMissingSecret).2 =
      .error "accessKey, secretKey, and region are required for OBJECT_STORAGE mode" ∧
    (configureReverseProxy rpDisabled rpMissingSecret).1 = [.getOptions] ∧
    (configureReverseProxy rpDisabled rpMissingSecret).1 ≠ [] :=
  ⟨rfl, rfl, by decide⟩

/-- Claim C6 (amended): for every enabled OBJECT_STORAGE configuration
with an empty accessKey, secretKey, or region, `configureReverseProxy`
returns the local validation error and issues no write: the only call in
the trace is the initial options fetch. -/
theorem reverse_proxy_validation_before_write (current desired : ReverseProxy)
    (hen : desired.enabled = true) (hmode : desired.mode = "OBJECT_STORAGE")
    (hmiss : desired.accessKey = "" ∨ desired.secretKey = "" ∨ desired.region = "") :
    configureReverseProxy current desired =
      ([.getOptions],
        .error "accessKey, secretKey, and region are required for OBJECT_STORAGE mode") := by
  have hcond : (desired.mode == "OBJECT_STORAGE" &&
      (desired.accessKey == "" || desired.secretKey == "" || desired.region == "")) = true := by
    rw [hmode]
    rcases hmiss with h | h | h <;> simp [h]
  have hbody : ∀ rp : ReverseProxy, rp.enabled = true →
      (rp.mode == "OBJECT_STORAGE" &&
        (rp.accessKey == "" || rp.secretKey == "" || rp.region == "")) = true →
      configureRPBody current rp =
        ([.getOptions],
          .error "accessKey, secretKey, and region are required for OBJECT_STORAGE mode") := by
    intro rp hrpen hrpcond
    unfold configureRPBody
    rw [hrpen, hrpcond]
    simp
  unfold configureReverseProxy
  by_cases hh : (desired.hostname != "") = true
  · rw [if_pos hh]
    exact hbody { desired with enabled := true } rfl hcond
  · rw [if_neg hh]
    exact hbody desired hen hcond

/-- Witness for the amended C6 at the concrete configuration with the
missing secret key. -/
theorem reverse_proxy_validation_before_write_witness :
    (rpMissingSecret.enabled = true ∧ rpMissingSecret.mode = "OBJECT_STORAGE" ∧
      rpMissingSecret.secretKey = "") ∧
    configureReverseProxy rpDisabled rpMissingSecret =
      ([.getOptions],
        .error "accessKey, secretKey, and region are required for OBJECT_STORAGE mode") :=
  ⟨⟨by decide, by decide, by decide⟩,
    reverse_proxy_validation_before_write rpDisabled rpMissingSecret
      (by decide) (by decide) (Or.inr (Or.inl (by decide)))⟩

/-! ## Claims about the service lifecycle and options decoding -/

/-- The create path when the listing holds a matching record. -/
theorem serviceCreate_some {services : List ServiceResource}
    {name uniqueName description : String} {r : ServiceResource}
    (h : findServiceByUniqueName services (toLowerStr uniqueName) = some r) :
    resourceCacheflyServiceCreate services name uniqueName description =
      if r.status = "DEACTIVATED" then
        ([.listServices, .activate r.id], .reactivated r)
      else ([.listServices], .conflict (toLowerStr uniqueName)) := by
  unfold resourceCacheflyServiceCreate
  rw [h]

/-- The create path when the listing holds no matching record. -/
theorem serviceCreate_none {services : List ServiceResource}
    {name uniqueName description : String}
    (h : findServiceByUniqueName services (toLowerStr uniqueName) = none) :
    resourceCacheflyServiceCreate services name uniqueName description =
      ([.listServices, .createService name (toLowerStr uniqueName) description],
        .created name (toLowerStr uniqueName) description) := by
  unfold resourceCacheflyServiceCreate
  rw [h]

/-- Claim C7: with globally unique `uniqueName`s, creation reactivates
and returns an exactly matching DEACTIVATED record without issuing a
create call, fails with a conflict (and no create call) when the
matching record has any other status, and creates a new record when no
record matches. -/
theorem create_or_reactivate_branching (services : List ServiceResource)
    (name uniqueName description : String) (r : ServiceResource)
    (huniq : (services.map (fun s => s.uniqueName)).Nodup) :
    (r ∈ services → r.uniqueName = toLowerStr uniqueName → r.status = "DEACTIVATED" →
      resourceCacheflyServiceCreate services name uniqueName description =
        ([.listServices, .activate r.id], .reactivated r)) ∧
    (r ∈ services → r.uniqueName = toLowerStr uniqueName → r.status ≠ "DEACTIVATED" →
      resourceCacheflyServiceCreate services name uniqueName description =
        ([.listServices], .conflict (toLowerStr uniqueName))) ∧
    ((∀ s ∈ services, s.uniqueName ≠ toLowerStr uniqueName) →
      resourceCacheflyServiceCreate services name uniqueName description =
        ([.listServices, .createService name (toLowerStr uniqueName) description],
          .created name (toLowerStr uniqueName) description)) := by
  have hfind : r ∈ services → r.uniqueName = toLowerStr uniqueName →
      findServiceByUniqueName services (toLowerStr uniqueName) = some r := by
    intro hr hun
    unfold findServiceByUniqueName
    have hkey := find?_key_eq_of_nodup (fun s : ServiceResource => s.uniqueName)
      services r huniq hr
    dsimp only at hkey
    rw [hun] at hkey
    exact hkey
  refine ⟨?_, ?_, ?_⟩
  · intro hr hun hst
    rw [serviceCreate_some (hfind hr hun), if_pos hst]
  · intro hr hun hst
    rw [serviceCreate_some (hfind hr hun), if_neg hst]
  · intro hnone
    apply serviceCreate_none
    unfold findServiceByUniqueName
    rw [List.find?_eq_none]
    intro s hs
    simp [hnone s hs]

/-- Witness for C7: reactivation of the deactivated record in the
concrete listing. -/
theorem create_or_reactivate_branching_witness :
    (services1.map (fun s => s.uniqueName)).Nodup ∧
    (svcDeactivated ∈ services1 ∧ svcDeactivated.uniqueName = toLowerStr "SvcOne" ∧
      svcDeactivated.status = "DEACTIVATED") ∧
    resourceCacheflyServiceCreate services1 "Svc One" "SvcOne" "" =
      ([.listServices, .activate svcDeactivated.id], .reactivated svcDeactivated) :=
  ⟨by decide, ⟨by decide, by decide, by decide⟩,
    (create_or_reactivate_branching services1 "Svc One" "SvcOne" "" svcDeactivated
      (by decide)).1 (by decide) (by decide) (by decide)⟩

/-- Claim C9: `getServiceOptions` returns either no error-TTL
configuration or one whose value is present; an error-TTL object with
`enabled` set but no value decodes to `nil`, its flag discarded. -/
theorem error_ttl_normalization (options : ServiceOptions) :
    ((getServiceOptions options).2.1 = none ∨
      ∃ t : ErrorTTL, (getServiceOptions options).2.1 = some t ∧ t.value ≠ none) ∧
    (∀ b : Bool, options.error_ttl = some ⟨b, none⟩ →
      (getServiceOptions options).2.1 = none) := by
  constructor
  · cases ho : options.error_ttl with
    | none =>
      left
      unfold getServiceOptions
      rw [ho]
    | some t =>
      by_cases hv : t.value = none
      · left
        unfold getServiceOptions
        rw [ho]
        dsimp only
        rw [if_pos hv]
      · right
        refine ⟨t, ?_, hv⟩
        unfold getServiceOptions
        rw [ho]
        dsimp only
        rw [if_neg hv]
  · intro b hb
    unfold getServiceOptions
    rw [hb]
    rfl

/-- Witness for C9 at an options document whose error-TTL is enabled but
valueless. -/
theorem error_ttl_normalization_witness :
    optionsNoValue.error_ttl = some ⟨true, none⟩ ∧
    (getServiceOptions optionsNoValue).2.1 = none :=
  ⟨rfl, (error_ttl_normalization optionsNoValue).2 true rfl⟩

end CacheFly
